import Mathlib

/-!
Verification development for the typing-net repository.

The repository's metric engine (`siamese_nn.py`, `classifier_keras_per_user.py`)
is embedded shallowly below: label and score vectors become `List ℚ`, numpy's
round-half-to-even becomes `npRound`, and a division whose denominator is zero
is modelled as failure (`none`).  The per-user trainer's interrupt flags are
embedded as a small transition system, and the pairwise-distance assembler's
two data-supply modes as list functions over an abstract embedding function.
-/

set_option maxHeartbeats 1000000

namespace TypingNet

/-- Rounding rule of numpy's `np.round`: round half to even.  Written with
integer division on the rational's numerator and denominator so that the
kernel can evaluate it: `q.num / q.den` is the floor of `q`
(`Rat.floor_def`), `q.num % q.den` over `q.den` its fractional part. -/
def npRound (q : ℚ) : ℤ :=
  let d : ℤ := (q.den : ℤ)
  let fl : ℤ := q.num / d
  let r : ℤ := q.num % d
  if 2 * r < d then fl
  else if d < 2 * r then fl + 1
  else if fl % 2 = 0 then fl else fl + 1

/-- One iteration of the counting loop of `accuracy_FAR_FRR`
(siamese_nn.py lines 65-74).  The accumulator is
(correct, FAR_errors, FRR_errors). -/
def affStep (y_true y_pred : List ℚ) (acc : ℕ × ℕ × ℕ) (i : ℕ) : ℕ × ℕ × ℕ :=
  let t := y_true.getD i 0
  let r : ℚ := (npRound (y_pred.getD i 0) : ℤ)
  if t = r then (acc.1 + 1, acc.2.1, acc.2.2)
  else if t = 0 ∧ r = 1 then (acc.1, acc.2.1 + 1, acc.2.2)
  else if t = 1 ∧ r = 0 then (acc.1, acc.2.1, acc.2.2 + 1)
  else acc

/-- The counting loop of `accuracy_FAR_FRR`, over `i in range(n_examples)`. -/
def affCounts (y_true y_pred : List ℚ) : ℕ × ℕ × ℕ :=
  (List.range y_true.length).foldl (affStep y_true y_pred) (0, 0, 0)

/-- Shallow embedding of `accuracy_FAR_FRR` (siamese_nn.py lines 58-80).
A division whose denominator is zero is modelled as failure (`none`). -/
def accuracy_FAR_FRR (y_true y_pred : List ℚ) : Option (ℚ × ℚ × ℚ) :=
  let n : ℚ := y_true.length
  let s : ℚ := y_true.sum
  let c := affCounts y_true y_pred
  if n = 0 ∨ n - s = 0 ∨ s = 0 then none
  else some ((c.1 : ℚ) / n, (c.2.1 : ℚ) / (n - s), (c.2.2 : ℚ) / s)

/-- One iteration of the loop of `compute_FAR_FRR`
(classifier_keras_per_user.py lines 121-136).  The accumulator is
(n_imposter_tries, n_valid_tries, FA_errors, FR_errors). -/
def cffStep (y_test y_pred_all : List ℚ) (acc : ℕ × ℕ × ℕ × ℕ) (i : ℕ) :
    ℕ × ℕ × ℕ × ℕ :=
  let t := y_test.getD i 0
  let r : ℚ := (npRound (y_pred_all.getD i 0) : ℤ)
  if t = 1 then
    (acc.1, acc.2.1 + 1, acc.2.2.1, if r = 0 then acc.2.2.2 + 1 else acc.2.2.2)
  else
    (acc.1 + 1, acc.2.1, if r = 1 then acc.2.2.1 + 1 else acc.2.2.1, acc.2.2.2)

/-- The counting loop of `compute_FAR_FRR`. -/
def cffCounts (y_pred_all y_test : List ℚ) : ℕ × ℕ × ℕ × ℕ :=
  (List.range y_test.length).foldl (cffStep y_test y_pred_all) (0, 0, 0, 0)

/-- Shallow embedding of `compute_FAR_FRR`
(classifier_keras_per_user.py lines 104-141).  The trained model's
predictions on `X_test` enter as the list `y_pred_all`; a division whose
denominator is zero is modelled as failure (`none`). -/
def compute_FAR_FRR (y_pred_all y_test : List ℚ) : Option (ℚ × ℚ) :=
  let c := cffCounts y_pred_all y_test
  if c.1 = 0 ∨ c.2.1 = 0 then none
  else some ((c.2.2.1 : ℚ) / c.1, (c.2.2.2 : ℚ) / c.2.1)

/-- Elements of Python `range(0, stop, step)` for a nonnegative stop already
truncated to ℕ (a negative Python stop becomes 0 under ℕ subtraction, giving
the same empty range). -/
def rangeList (stop step : ℕ) : List ℕ :=
  List.range' 0 ((stop + step - 1) / step) step

/-- Python `int()` truncation toward zero on a rational. -/
def truncInt (q : ℚ) : ℤ := if 0 ≤ q then ⌊q⌋ else ⌈q⌉

/-- Aggregated decision of the window starting at index `i`
(siamese_nn.py lines 93-97): 1 when the `ensemble_size - 1` rounded
predictions starting at `i` sum to more than `ensemble_size // 2`. -/
def windowVote (y_pred : List ℚ) (e i : ℕ) : ℚ :=
  if ((e / 2 : ℕ) : ℤ) <
      ((List.range (e - 1)).map (fun ii => npRound (y_pred.getD (i + ii) 0))).sum
  then 1 else 0

/-- One iteration of the ensembling loop: reads the window at start `i` from
the current `y_pred`, writes the aggregated decision back into position `i`
(the in-place mutation of the source), and updates the counters
(correct, FAR_errors, FRR_errors). -/
def ensembleStep (y_true : List ℚ) (e : ℕ) (st : List ℚ × ℕ × ℕ × ℕ) (i : ℕ) :
    List ℚ × ℕ × ℕ × ℕ :=
  let d : ℚ := windowVote st.1 e i
  let yp := st.1.set i d
  let t := y_true.getD i 0
  if t = d then (yp, st.2.1 + 1, st.2.2.1, st.2.2.2)
  else if t = 0 ∧ d = 1 then (yp, st.2.1, st.2.2.1 + 1, st.2.2.2)
  else if t = 1 ∧ d = 0 then (yp, st.2.1, st.2.2.1, st.2.2.2 + 1)
  else (yp, st.2.1, st.2.2.1, st.2.2.2)

/-- The ensembling loop of `ensemble_accuracy_FAR_FRR` (siamese_nn.py lines
91-106): iterates `i in range(0, n_examples - ensemble_size, ensemble_size - 1)`
carrying the mutated `y_pred` and the three counters. -/
def ensembleCore (y_true y_pred : List ℚ) (e : ℕ) : List ℚ × ℕ × ℕ × ℕ :=
  (rangeList (y_true.length - e) (e - 1)).foldl (ensembleStep y_true e)
    (y_pred, 0, 0, 0)

/-- Shallow embedding of `ensemble_accuracy_FAR_FRR` (siamese_nn.py lines
83-112).  Returns the `y_pred` array as the loop leaves it (the source mutates
it in place) together with the rates; `n_actual_examples` is
`len(range(0, n_examples, 9))` with the literal stride 9 of the source, and a
zero denominator is modelled as failure (`none`). -/
def ensemble_accuracy_FAR_FRR (y_true y_pred : List ℚ) (e : ℕ) :
    List ℚ × Option (ℚ × ℚ × ℚ) :=
  let n := y_true.length
  let n_actual : ℕ := (rangeList n 9).length
  let st := ensembleCore y_true y_pred e
  let posW : ℤ := truncInt (y_true.sum / ((e : ℚ) - 1))
  if (n_actual : ℚ) = 0 ∨ ((n_actual : ℚ) - (posW : ℚ)) = 0 ∨ (posW : ℚ) = 0 then
    (st.1, none)
  else
    (st.1, some ((st.2.1 : ℚ) / n_actual,
                 (st.2.2.1 : ℚ) / ((n_actual : ℚ) - (posW : ℚ)),
                 (st.2.2.2 : ℚ) / posW))

/-! ### Claim-side counting predicates for the single-prediction metrics -/

/-- Index `i` is counted correct by `accuracy_FAR_FRR`: the true label equals
the rounded score. -/
def affCorrect (yt yp : List ℚ) (i : ℕ) : Bool :=
  decide (yt.getD i 0 = ((npRound (yp.getD i 0) : ℤ) : ℚ))

/-- Index `i` is a false accept for `accuracy_FAR_FRR`: a negative (label 0)
whose score rounds to 1. -/
def affFA (yt yp : List ℚ) (i : ℕ) : Bool :=
  decide (yt.getD i 0 = 0 ∧ ((npRound (yp.getD i 0) : ℤ) : ℚ) = 1)

/-- Index `i` is a false reject for `accuracy_FAR_FRR`: a positive (label 1)
whose score rounds to 0. -/
def affFR (yt yp : List ℚ) (i : ℕ) : Bool :=
  decide (yt.getD i 0 = 1 ∧ ((npRound (yp.getD i 0) : ℤ) : ℚ) = 0)

/-- Index `i` is a valid try for `compute_FAR_FRR`: the true label is 1. -/
def cffValid (yt : List ℚ) (i : ℕ) : Bool :=
  decide (yt.getD i 0 = 1)

/-- Index `i` is a false accept for `compute_FAR_FRR`: any label other than 1
(imposter, including the unknown sentinel -1 and label 0) whose prediction
rounds to 1. -/
def cffFA (yt yp : List ℚ) (i : ℕ) : Bool :=
  decide (¬ yt.getD i 0 = 1 ∧ ((npRound (yp.getD i 0) : ℤ) : ℚ) = 1)

/-- Index `i` is a false reject for `compute_FAR_FRR`: a valid user (label 1)
whose prediction rounds to 0. -/
def cffFR (yt yp : List ℚ) (i : ℕ) : Bool :=
  decide (yt.getD i 0 = 1 ∧ ((npRound (yp.getD i 0) : ℤ) : ℚ) = 0)

/-! ### Claim-side views of the ensembling loop -/

/-- The window starts the ensembling loop visits:
`range(0, n_examples - ensemble_size, ensemble_size - 1)`. -/
def windowStarts (yt : List ℚ) (e : ℕ) : List ℕ :=
  rangeList (yt.length - e) (e - 1)

/-- The denominator `n_actual_examples = len(range(0, n_examples, 9))` of the
source (siamese_nn.py line 86), with its hardcoded stride 9. -/
def nActual (yt : List ℚ) : ℕ :=
  (rangeList yt.length 9).length

/-- The source's `int(np.sum(y_true) / (ensemble_size - 1))`. -/
def posWindows (yt : List ℚ) (e : ℕ) : ℤ :=
  truncInt (yt.sum / ((e : ℚ) - 1))

/-- Window start `i` is decided correctly: the leading true label equals the
window's aggregated decision computed from the original predictions. -/
def ensCorrect (yt yp : List ℚ) (e : ℕ) (i : ℕ) : Bool :=
  decide (yt.getD i 0 = windowVote yp e i)

/-- Window start `i` is a false accept: leading label 0, aggregated decision 1. -/
def ensFA (yt yp : List ℚ) (e : ℕ) (i : ℕ) : Bool :=
  decide (yt.getD i 0 = 0 ∧ windowVote yp e i = 1)

/-- Window start `i` is a false reject: leading label 1, aggregated decision 0. -/
def ensFR (yt yp : List ℚ) (e : ℕ) (i : ℕ) : Bool :=
  decide (yt.getD i 0 = 1 ∧ windowVote yp e i = 0)

/-- The accuracy described by the spec for the ensembled metric: the number of
correctly decided windows divided by the number of windows (defined from the
spec's words, for comparison with the source's accuracy). -/
def claimedEnsembleAccuracy (yt yp : List ℚ) (e : ℕ) : ℚ :=
  ((windowStarts yt e).countP (ensCorrect yt yp e) : ℚ) /
    ((windowStarts yt e).length : ℚ)

/-! ### Pairwise-distance assembler (siamese_nn.py `main`, lines 164-191)

The embedding tower is an external artifact; it enters as an abstract function
`emb` from samples to embeddings (here one rational per embedding dimension is
enough, so `emb : α → ℚ`).  A triplet is an (anchor, positive, negative)
sample tuple. -/

/-- Distance vectors of the whole-dataset-in-memory mode: for each triplet the
absolute difference of anchor/positive embeddings, and of anchor/negative
embeddings (siamese_nn.py lines 167-176). -/
def assembleWhole {α : Type} (emb : α → ℚ) (triplets : List (α × α × α)) :
    List ℚ × List ℚ :=
  (triplets.map (fun t => |emb t.1 - emb t.2.1|),
   triplets.map (fun t => |emb t.1 - emb t.2.2|))

/-- Consecutive batches of at most `bs` elements (the last one may be
shorter); `bs = 0` degenerates to singleton batches. -/
def chunkList {α : Type} (bs : ℕ) : List α → List (List α)
  | [] => []
  | x :: xs => (x :: xs.take (bs - 1)) :: chunkList bs (xs.drop (bs - 1))
termination_by xs => xs.length
decreasing_by simp [List.length_drop]; omega

/-- Modelled from the spec: `utils.DataGenerator` (absent from the sources;
§6 describes it as "a lazy batch-producing sequence abstraction parameterized
by path, split, batch size, and optional stop-after-N-batches bound").  It
yields the dataset in batches of `bs`, truncated to the first `stopAfter`
batches when that bound is given. -/
def dataGeneratorBatches {α : Type} (triplets : List (α × α × α)) (bs : ℕ)
    (stopAfter : Option ℕ) : List (List (α × α × α)) :=
  match stopAfter with
  | none => chunkList bs triplets
  | some m => (chunkList bs triplets).take m

/-- Distance vectors of the incremental batch-supply mode: the assembler is
applied batch by batch and the per-batch outputs are concatenated
(siamese_nn.py lines 178-185). -/
def assembleBatched {α : Type} (emb : α → ℚ) (triplets : List (α × α × α))
    (bs : ℕ) (stopAfter : Option ℕ) : List ℚ × List ℚ :=
  let batches := dataGeneratorBatches triplets bs stopAfter
  ((batches.map (fun b => (assembleWhole emb b).1)).flatten,
   (batches.map (fun b => (assembleWhole emb b).2)).flatten)

/-- The two training-data supply modes exactly as `main` selects them
(siamese_nn.py lines 164-185): whole-dataset mode loads everything, batch mode
uses `DataGenerator(..., batch_size=100, stop_after_batch=10)`. -/
def mainTrainDistances {α : Type} (emb : α → ℚ) (triplets : List (α × α × α))
    (read_batches : Bool) : List ℚ × List ℚ :=
  if read_batches then assembleBatched emb triplets 100 (some 10)
  else assembleWhole emb triplets

/-! ### Interrupt flags of the per-user trainer
(classifier_keras_per_user.py lines 29-55, 172-222)

The per-user loop with its signal handler is embedded as a transition system.
A state carries the two module-level flags, the current program point of
`main`'s per-user loop, and whether `exit()` has run.  Events are the
delivery of SIGINT (`interrupt`), the completion of a user's `model.fit`
(`fitEnd`, immediately after which line 198 sets `training_complete = True`),
and the completion of a user's evaluation (`evalEnd`, after which the loop
moves on to the next user; neither flag is touched). -/

/-- Program points of the per-user loop: training user `u`, or evaluating
user `u`. -/
inductive Phase : Type
  | fitting : ℕ → Phase
  | evaluating : ℕ → Phase
deriving DecidableEq

/-- Process state: the two global flags (lines 30-31), the program point, and
whether the process has exited. -/
structure ProcState : Type where
  stop_flag : Bool
  training_complete : Bool
  phase : Phase
  exited : Bool
deriving DecidableEq

/-- Events affecting the flags: a SIGINT delivery, the end of a fit, the end
of an evaluation. -/
inductive Event : Type
  | interrupt : Event
  | fitEnd : Event
  | evalEnd : Event
deriving DecidableEq

/-- Initial state: both flags false (lines 30-31), about to train user 0. -/
def initState : ProcState :=
  ⟨false, false, Phase.fitting 0, false⟩

/-- One step of the flag lifecycle.  `interrupt` runs `handler` (lines 44-55):
when `training_complete` is still false it sets `stop_flag`, otherwise it
calls `exit()`.  `fitEnd` executes line 198 (`training_complete = True`).
`evalEnd` moves to the next user without touching the flags. -/
def step (s : ProcState) (ev : Event) : ProcState :=
  if s.exited then s
  else
    match ev with
    | Event.interrupt =>
        if ¬ s.training_complete then { s with stop_flag := true }
        else { s with exited := true }
    | Event.fitEnd =>
        match s.phase with
        | Phase.fitting u => { s with training_complete := true, phase := Phase.evaluating u }
        | _ => s
    | Event.evalEnd =>
        match s.phase with
        | Phase.evaluating u => { s with phase := Phase.fitting (u + 1) }
        | _ => s

/-- The state after a list of events, from process start. -/
def run (evs : List Event) : ProcState :=
  evs.foldl step initState

/-! ### Configuration validation (siamese_nn.py `parse_args` and `main`) -/

/-- Effects `main` performs after validation: loading the tower model,
reading the triplet shapes, loading the triplet data. -/
inductive MainEffect : Type
  | loadModel : MainEffect
  | getShapes : MainEffect
  | loadData : MainEffect
deriving DecidableEq

/-- Shallow embedding of `parse_args` (siamese_nn.py lines 129-138): the two
file-existence assertions, then the ensemble bound assertion, in source
order; the first failing assertion's message is returned. -/
def parse_args (tripletsExists modelExists : Bool) (ensemble : ℤ) :
    Except String ℤ :=
  if ¬ tripletsExists then Except.error "The specified triplet file does not exist."
  else if ¬ modelExists then Except.error "The specified model file does not exist."
  else if ¬ (ensemble ≤ 100) then Except.error "Invalid ensemble value. Cannot have an ensemble > 100."
  else Except.ok ensemble

/-- The loading effects `main` reaches (siamese_nn.py lines 144-172):
`parse_args` runs first (line 150); only when it passes does `main` load the
model (line 155), read shapes (line 158) and load data (lines 167-185). -/
def mainEffects (tripletsExists modelExists : Bool) (ensemble : ℤ) :
    List MainEffect :=
  match parse_args tripletsExists modelExists ensemble with
  | Except.error _ => []
  | Except.ok _ => [MainEffect.loadModel, MainEffect.getShapes, MainEffect.loadData]

/-! ### Lemmas about `npRound` -/

theorem npRound_zero : npRound 0 = 0 := by decide

theorem npRound_one : npRound 1 = 1 := by decide

/-- `npRound` returns the floor or the floor plus one. -/
theorem npRound_floor_or (q : ℚ) : npRound q = ⌊q⌋ ∨ npRound q = ⌊q⌋ + 1 := by
  simp only [npRound, Rat.floor_def]
  split_ifs <;> simp

/-- A score in [0, 1] rounds to 0 or to 1. -/
theorem npRound_unit {p : ℚ} (h0 : 0 ≤ p) (h1 : p ≤ 1) :
    npRound p = 0 ∨ npRound p = 1 := by
  have hfl0 : 0 ≤ ⌊p⌋ := Int.floor_nonneg.2 h0
  have hfl1 : ⌊p⌋ ≤ 1 := by
    have h := Int.floor_le_floor h1
    rwa [Int.floor_one] at h
  have hcase : ⌊p⌋ = 0 ∨ ⌊p⌋ = 1 := by omega
  rcases hcase with hc | hc
  · rcases npRound_floor_or p with h | h
    · left; rw [h, hc]
    · right; rw [h, hc]; norm_num
  · have hple : (1 : ℚ) ≤ p := by
      have h := Int.floor_le p
      rw [hc] at h
      exact_mod_cast h
    have hp : p = 1 := le_antisymm h1 hple
    right; rw [hp]; exact npRound_one

/-! ### Generic counting lemmas -/

/-- Counting three mutually exclusive, jointly exhaustive predicates over a
list accounts for every element. -/
theorem countP_three_partition {α : Type} (l : List α) (p q r : α → Bool)
    (h : ∀ x ∈ l, (p x ∧ ¬ q x ∧ ¬ r x) ∨ (¬ p x ∧ q x ∧ ¬ r x) ∨
          (¬ p x ∧ ¬ q x ∧ r x)) :
    l.countP p + l.countP q + l.countP r = l.length := by
  induction l with
  | nil => simp
  | cons a l ih =>
    simp only [List.countP_cons, List.length_cons]
    have ha := h a (by simp)
    have hl := ih (fun x hx => h x (by simp [hx]))
    rcases ha with ⟨h1, h2, h3⟩ | ⟨h1, h2, h3⟩ | ⟨h1, h2, h3⟩ <;>
      simp only [h1, h2, h3, Bool.not_eq_true] at * <;> simp [h1, h2, h3] <;> omega

/-- Counting indices of `range l.length` through `getD` is counting the list's
elements. -/
theorem countP_range_getD (l : List ℚ) (p : ℚ → Bool) :
    (List.range l.length).countP (fun i => p (l.getD i 0)) = l.countP p := by
  induction l with
  | nil => simp
  | cons a l ih =>
    rw [List.length_cons, List.range_succ_eq_map, List.countP_cons,
      List.countP_map]
    have hcomp : ((fun i => p ((a :: l).getD i 0)) ∘ Nat.succ) =
        (fun i => p (l.getD i 0)) := rfl
    rw [hcomp, ih, List.countP_cons]
    simp [List.getD_cons_zero]

/-! ### The counting loop of `accuracy_FAR_FRR` -/

/-- One step of the `accuracy_FAR_FRR` loop increments exactly the counter of
the predicate the index satisfies. -/
theorem affStep_eq (yt yp : List ℚ) (acc : ℕ × ℕ × ℕ) (i : ℕ) :
    affStep yt yp acc i =
      (acc.1 + (if affCorrect yt yp i then 1 else 0),
       acc.2.1 + (if affFA yt yp i then 1 else 0),
       acc.2.2 + (if affFR yt yp i then 1 else 0)) := by
  simp only [affStep, affCorrect, affFA, affFR, decide_eq_true_eq]
  by_cases h1 : yt.getD i 0 = ((npRound (yp.getD i 0) : ℤ) : ℚ)
  · have hfa : ¬ (yt.getD i 0 = 0 ∧ ((npRound (yp.getD i 0) : ℤ) : ℚ) = 1) := by
      rintro ⟨ht, hr⟩
      rw [ht] at h1
      rw [← h1] at hr
      norm_num at hr
    have hfr : ¬ (yt.getD i 0 = 1 ∧ ((npRound (yp.getD i 0) : ℤ) : ℚ) = 0) := by
      rintro ⟨ht, hr⟩
      rw [ht] at h1
      rw [← h1] at hr
      norm_num at hr
    rw [if_pos h1, if_pos h1, if_neg hfa, if_neg hfr]
    simp
  · by_cases h2 : yt.getD i 0 = 0 ∧ ((npRound (yp.getD i 0) : ℤ) : ℚ) = 1
    · have hfr : ¬ (yt.getD i 0 = 1 ∧ ((npRound (yp.getD i 0) : ℤ) : ℚ) = 0) := by
        rintro ⟨ht, _⟩
        rw [h2.1] at ht
        norm_num at ht
      rw [if_neg h1, if_neg h1, if_pos h2, if_pos h2, if_neg hfr]
      simp
    · by_cases h3 : yt.getD i 0 = 1 ∧ ((npRound (yp.getD i 0) : ℤ) : ℚ) = 0
      · rw [if_neg h1, if_neg h1, if_neg h2, if_neg h2, if_pos h3, if_pos h3]
        simp
      · rw [if_neg h1, if_neg h1, if_neg h2, if_neg h2, if_neg h3, if_neg h3]
        simp

/-- The `accuracy_FAR_FRR` loop folded over any index list counts the three
predicates. -/
theorem foldl_affStep (yt yp : List ℚ) :
    ∀ (l : List ℕ) (c fa fr : ℕ),
      l.foldl (affStep yt yp) (c, fa, fr) =
        (c + l.countP (affCorrect yt yp), fa + l.countP (affFA yt yp),
         fr + l.countP (affFR yt yp))
  | [], c, fa, fr => by simp
  | i :: l, c, fa, fr => by
    rw [List.foldl_cons, affStep_eq, foldl_affStep yt yp l,
      List.countP_cons, List.countP_cons, List.countP_cons]
    simp only [Prod.mk.injEq]
    omega

/-- The counters of `accuracy_FAR_FRR` are the three index counts. -/
theorem affCounts_eq (yt yp : List ℚ) :
    affCounts yt yp =
      ((List.range yt.length).countP (affCorrect yt yp),
       (List.range yt.length).countP (affFA yt yp),
       (List.range yt.length).countP (affFR yt yp)) := by
  rw [affCounts, foldl_affStep]
  simp

/-! ### The counting loop of `compute_FAR_FRR` -/

/-- One step of the `compute_FAR_FRR` loop increments the try counter of the
example's class and, on a misclassification, the matching error counter. -/
theorem cffStep_eq (yt yp : List ℚ) (acc : ℕ × ℕ × ℕ × ℕ) (i : ℕ) :
    cffStep yt yp acc i =
      (acc.1 + (if cffValid yt i then 0 else 1),
       acc.2.1 + (if cffValid yt i then 1 else 0),
       acc.2.2.1 + (if cffFA yt yp i then 1 else 0),
       acc.2.2.2 + (if cffFR yt yp i then 1 else 0)) := by
  simp only [cffStep, cffValid, cffFA, cffFR, decide_eq_true_eq]
  by_cases h1 : yt.getD i 0 = 1
  · have hfa : ¬ (¬ yt.getD i 0 = 1 ∧ ((npRound (yp.getD i 0) : ℤ) : ℚ) = 1) := by
      rintro ⟨ht, _⟩
      exact ht h1
    rw [if_pos h1, if_pos h1, if_pos h1, if_neg hfa]
    by_cases h2 : ((npRound (yp.getD i 0) : ℤ) : ℚ) = 0
    · rw [if_pos h2, if_pos (And.intro h1 h2)]
      simp
    · have hfr : ¬ (yt.getD i 0 = 1 ∧ ((npRound (yp.getD i 0) : ℤ) : ℚ) = 0) :=
        fun hc => h2 hc.2
      rw [if_neg h2, if_neg hfr]
      simp
  · have hfr : ¬ (yt.getD i 0 = 1 ∧ ((npRound (yp.getD i 0) : ℤ) : ℚ) = 0) :=
      fun hc => h1 hc.1
    rw [if_neg h1, if_neg h1, if_neg h1, if_neg hfr]
    by_cases h2 : ((npRound (yp.getD i 0) : ℤ) : ℚ) = 1
    · rw [if_pos h2, if_pos (And.intro h1 h2)]
      simp
    · have hfa : ¬ (¬ yt.getD i 0 = 1 ∧ ((npRound (yp.getD i 0) : ℤ) : ℚ) = 1) :=
        fun hc => h2 hc.2
      rw [if_neg h2, if_neg hfa]
      simp

/-- The `compute_FAR_FRR` loop folded over any index list counts imposter
tries, valid tries, false accepts and false rejects. -/
theorem foldl_cffStep (yt yp : List ℚ) :
    ∀ (l : List ℕ) (im v fa fr : ℕ),
      l.foldl (cffStep yt yp) (im, v, fa, fr) =
        (im + l.countP (fun i => ! cffValid yt i),
         v + l.countP (cffValid yt),
         fa + l.countP (cffFA yt yp),
         fr + l.countP (cffFR yt yp))
  | [], im, v, fa, fr => by simp
  | i :: l, im, v, fa, fr => by
    rw [List.foldl_cons, cffStep_eq, foldl_cffStep yt yp l,
      List.countP_cons, List.countP_cons, List.countP_cons, List.countP_cons]
    simp only [Prod.mk.injEq]
    by_cases h : cffValid yt i <;> simp [h] <;> omega

/-- The counters of `compute_FAR_FRR` are the four index counts. -/
theorem cffCounts_eq (yp yt : List ℚ) :
    cffCounts yp yt =
      ((List.range yt.length).countP (fun i => ! cffValid yt i),
       (List.range yt.length).countP (cffValid yt),
       (List.range yt.length).countP (cffFA yt yp),
       (List.range yt.length).countP (cffFR yt yp)) := by
  rw [cffCounts, foldl_cffStep]
  simp

/-! ### Binary label vectors -/

/-- The sum of a 0/1 label vector is the number of its 1-labels. -/
theorem binary_sum_eq_countP (l : List ℚ) (h : ∀ t ∈ l, t = 0 ∨ t = 1) :
    l.sum = (l.countP (fun t => decide (t = 1)) : ℚ) := by
  induction l with
  | nil => simp
  | cons a l ih =>
    rw [List.sum_cons, List.countP_cons, ih (fun x hx => h x (by simp [hx]))]
    rcases h a (by simp) with h0 | h1
    · norm_num [h0]
    · simp only [h1, decide_True, if_true]
      push_cast
      ring

/-- The length of a 0/1 label vector splits into its 0-count and its 1-count. -/
theorem binary_length_eq (l : List ℚ) (h : ∀ t ∈ l, t = 0 ∨ t = 1) :
    l.length = l.countP (fun t => decide (t = 0)) +
      l.countP (fun t => decide (t = 1)) := by
  induction l with
  | nil => simp
  | cons a l ih =>
    rw [List.length_cons, List.countP_cons, List.countP_cons,
      ih (fun x hx => h x (by simp [hx]))]
    rcases h a (by simp) with h0 | h1
    · norm_num [h0]
      omega
    · norm_num [h1]
      omega

/-- The imposter-try count of `compute_FAR_FRR` counts the labels other
than 1. -/
theorem countP_not_valid_eq (yt : List ℚ) :
    (List.range yt.length).countP (fun i => ! cffValid yt i) =
      yt.countP (fun t => ! decide (t = 1)) :=
  countP_range_getD yt (fun t => ! decide (t = 1))

/-- The valid-try count of `compute_FAR_FRR` counts the 1-labels. -/
theorem countP_valid_eq (yt : List ℚ) :
    (List.range yt.length).countP (cffValid yt) =
      yt.countP (fun t => decide (t = 1)) :=
  countP_range_getD yt (fun t => decide (t = 1))

/-- C2: on a binary label vector containing both classes and a same-length
score vector with entries in [0,1], `accuracy_FAR_FRR` returns accuracy =
(count of indices whose label equals the rounded score) / total, FAR =
(count of negatives rounded to 1) / (count of 0-labels), and FRR = (count of
positives rounded to 0) / (count of 1-labels). -/
theorem accuracy_FAR_FRR_correct (yt yp : List ℚ)
    (hbin : ∀ t ∈ yt, t = 0 ∨ t = 1)
    (h0 : (0:ℚ) ∈ yt) (h1 : (1:ℚ) ∈ yt)
    (hlen : yp.length = yt.length)
    (hscore : ∀ p ∈ yp, 0 ≤ p ∧ p ≤ 1) :
    accuracy_FAR_FRR yt yp =
      some ((((List.range yt.length).countP (affCorrect yt yp) : ℕ) : ℚ) /
              ((yt.length : ℕ) : ℚ),
            (((List.range yt.length).countP (affFA yt yp) : ℕ) : ℚ) /
              ((yt.countP (fun t => decide (t = 0)) : ℕ) : ℚ),
            (((List.range yt.length).countP (affFR yt yp) : ℕ) : ℚ) /
              ((yt.countP (fun t => decide (t = 1)) : ℕ) : ℚ)) := by
  have hs : yt.sum = (yt.countP (fun t => decide (t = 1)) : ℚ) :=
    binary_sum_eq_countP yt hbin
  have hlg := binary_length_eq yt hbin
  have hn : (yt.length : ℚ) - yt.sum =
      (yt.countP (fun t => decide (t = 0)) : ℚ) := by
    rw [hs, hlg]
    push_cast
    ring
  have hpos1 : 0 < yt.countP (fun t => decide (t = 1)) :=
    List.countP_pos.2 ⟨1, h1, by simp⟩
  have hpos0 : 0 < yt.countP (fun t => decide (t = 0)) :=
    List.countP_pos.2 ⟨0, h0, by simp⟩
  have hlenpos : 0 < yt.length := List.length_pos.2 (by rintro rfl; simp at h0)
  have hcond : ¬ (((yt.length : ℕ) : ℚ) = 0 ∨ ((yt.length : ℕ) : ℚ) - yt.sum = 0 ∨
      yt.sum = 0) := by
    push_neg
    refine ⟨by exact_mod_cast hlenpos.ne', ?_, ?_⟩
    · rw [hn]; exact_mod_cast hpos0.ne'
    · rw [hs]; exact_mod_cast hpos1.ne'
  simp only [accuracy_FAR_FRR, affCounts_eq]
  rw [if_neg hcond, hn, hs]

/-- C3: when one class is entirely absent from the label vector (all labels 1
or all labels 0), both `accuracy_FAR_FRR` and `compute_FAR_FRR` divide by
zero — embedded here as returning `none` — because both divide
unconditionally. -/
theorem degenerate_division_by_zero (yt yp : List ℚ) (hne : yt ≠ [])
    (h : (∀ t ∈ yt, t = 1) ∨ (∀ t ∈ yt, t = 0)) :
    accuracy_FAR_FRR yt yp = none ∧ compute_FAR_FRR yp yt = none := by
  constructor
  · simp only [accuracy_FAR_FRR]
    rcases h with h1 | h0
    · have hbin : ∀ t ∈ yt, t = 0 ∨ t = 1 := fun t ht => Or.inr (h1 t ht)
      have hsum : yt.sum = ((yt.length : ℕ) : ℚ) := by
        rw [binary_sum_eq_countP yt hbin]
        have : yt.countP (fun t => decide (t = 1)) = yt.length :=
          List.countP_eq_length.2 (fun t ht => by simp [h1 t ht])
        rw [this]
      rw [if_pos (Or.inr (Or.inl (by rw [hsum]; ring)))]
    · have hsum : yt.sum = 0 := List.sum_eq_zero h0
      rw [if_pos (Or.inr (Or.inr hsum))]
  · simp only [compute_FAR_FRR, cffCounts_eq]
    rcases h with h1 | h0
    · have him : (List.range yt.length).countP (fun i => ! cffValid yt i) = 0 := by
        rw [countP_not_valid_eq]
        exact List.countP_eq_zero.2 (fun t ht => by simp [h1 t ht])
      rw [if_pos (Or.inl him)]
    · have hvl : (List.range yt.length).countP (cffValid yt) = 0 := by
        rw [countP_valid_eq]
        refine List.countP_eq_zero.2 (fun t ht => ?_)
        rw [h0 t ht]
        norm_num
      rw [if_pos (Or.inr hvl)]

/-- C8: `compute_FAR_FRR` counts a label-1 example whose rounded prediction
is 0 as a False Reject, and an example with any other label (including the
unknown sentinel -1 and label 0) whose rounded prediction is 1 as a False
Accept, and returns FAR = false accepts / imposter tries and FRR = false
rejects / valid tries. -/
theorem compute_FAR_FRR_correct (yp yt : List ℚ)
    (hlen : yp.length = yt.length)
    (hv : ∃ t ∈ yt, t = 1) (hi : ∃ t ∈ yt, t ≠ 1) :
    compute_FAR_FRR yp yt =
      some ((((List.range yt.length).countP (cffFA yt yp) : ℕ) : ℚ) /
              (((List.range yt.length).countP (fun i => ! cffValid yt i) : ℕ) : ℚ),
            (((List.range yt.length).countP (cffFR yt yp) : ℕ) : ℚ) /
              (((List.range yt.length).countP (cffValid yt) : ℕ) : ℚ)) := by
  have him : 0 < (List.range yt.length).countP (fun i => ! cffValid yt i) := by
    rw [countP_not_valid_eq]
    rcases hi with ⟨t, ht, hne1⟩
    exact List.countP_pos.2 ⟨t, ht, by simp [hne1]⟩
  have hval : 0 < (List.range yt.length).countP (cffValid yt) := by
    rw [countP_valid_eq]
    rcases hv with ⟨t, ht, h1⟩
    exact List.countP_pos.2 ⟨t, ht, by simp [h1]⟩
  simp only [compute_FAR_FRR, cffCounts_eq]
  rw [if_neg (by push_neg; exact ⟨him.ne', hval.ne'⟩)]

/-- Every index of a binary same-length instance falls in exactly one of the
three buckets of the `accuracy_FAR_FRR` loop. -/
theorem aff_partition (yt yp : List ℚ)
    (hbin : ∀ t ∈ yt, t = 0 ∨ t = 1)
    (hscore : ∀ p ∈ yp, 0 ≤ p ∧ p ≤ 1) :
    (List.range yt.length).countP (affCorrect yt yp) +
      (List.range yt.length).countP (affFA yt yp) +
      (List.range yt.length).countP (affFR yt yp) = yt.length := by
  have h := countP_three_partition (List.range yt.length)
    (affCorrect yt yp) (affFA yt yp) (affFR yt yp) ?_
  · rwa [List.length_range] at h
  intro i hi
  have hilt : i < yt.length := List.mem_range.1 hi
  have ht : yt.getD i 0 = 0 ∨ yt.getD i 0 = 1 := by
    rw [List.getD_eq_getElem yt 0 hilt]
    exact hbin _ (List.getElem_mem hilt)
  have hr : ((npRound (yp.getD i 0) : ℤ) : ℚ) = 0 ∨
      ((npRound (yp.getD i 0) : ℤ) : ℚ) = 1 := by
    by_cases hip : i < yp.length
    · rw [List.getD_eq_getElem yp 0 hip]
      rcases hscore _ (List.getElem_mem hip) with ⟨hp0, hp1⟩
      rcases npRound_unit hp0 hp1 with h | h <;> simp [h]
    · rw [List.getD_eq_default yp 0 (le_of_not_lt hip)]
      simp [npRound_zero]
  rcases ht with ht | ht <;> rcases hr with hr | hr
  · exact Or.inl (by
      norm_num [affCorrect, affFA, affFR, ht, hr, -List.getD_eq_getElem?_getD])
  · exact Or.inr (Or.inl (by
      norm_num [affCorrect, affFA, affFR, ht, hr, -List.getD_eq_getElem?_getD]))
  · exact Or.inr (Or.inr (by
      norm_num [affCorrect, affFA, affFR, ht, hr, -List.getD_eq_getElem?_getD]))
  · exact Or.inl (by
      norm_num [affCorrect, affFA, affFR, ht, hr, -List.getD_eq_getElem?_getD])

/-- C4: on a binary label vector with both classes present and a same-length
score vector in [0,1], the three rates of `accuracy_FAR_FRR` reconstruct the
example count: round(accuracy·n) + FAR·n_negatives + FRR·n_positives = n. -/
theorem error_count_reconstruction (yt yp : List ℚ)
    (hbin : ∀ t ∈ yt, t = 0 ∨ t = 1)
    (hscore : ∀ p ∈ yp, 0 ≤ p ∧ p ≤ 1)
    (hlen : yp.length = yt.length)
    (h0 : (0:ℚ) ∈ yt) (h1 : (1:ℚ) ∈ yt)
    {a far frr : ℚ}
    (hres : accuracy_FAR_FRR yt yp = some (a, far, frr)) :
    ((round (a * ((yt.length : ℕ) : ℚ)) : ℤ) : ℚ) +
      far * ((yt.countP (fun t => decide (t = 0)) : ℕ) : ℚ) +
      frr * ((yt.countP (fun t => decide (t = 1)) : ℕ) : ℚ) =
      ((yt.length : ℕ) : ℚ) := by
  rw [accuracy_FAR_FRR_correct yt yp hbin h0 h1 hlen hscore,
    Option.some_inj, Prod.mk.injEq, Prod.mk.injEq] at hres
  obtain ⟨ha, hfar, hfrr⟩ := hres
  have hpos1 : 0 < yt.countP (fun t => decide (t = 1)) :=
    List.countP_pos.2 ⟨1, h1, by simp⟩
  have hpos0 : 0 < yt.countP (fun t => decide (t = 0)) :=
    List.countP_pos.2 ⟨0, h0, by simp⟩
  have hlenpos : 0 < yt.length := List.length_pos.2 (by rintro rfl; simp at h0)
  have hn0 : ((yt.length : ℕ) : ℚ) ≠ 0 := by exact_mod_cast hlenpos.ne'
  have hc0 : ((yt.countP (fun t => decide (t = 0)) : ℕ) : ℚ) ≠ 0 := by
    exact_mod_cast hpos0.ne'
  have hc1 : ((yt.countP (fun t => decide (t = 1)) : ℕ) : ℚ) ≠ 0 := by
    exact_mod_cast hpos1.ne'
  rw [← ha, ← hfar, ← hfrr, div_mul_cancel₀ _ hn0, div_mul_cancel₀ _ hc0,
    div_mul_cancel₀ _ hc1, round_natCast]
  have hpart := aff_partition yt yp hbin hscore
  exact_mod_cast hpart

/-! ### The ensembling loop -/

/-- Setting an entry of a list does not change the other entries. -/
theorem getD_set_of_ne (l : List ℚ) (i j : ℕ) (x d : ℚ) (h : i ≠ j) :
    (l.set i x).getD j d = l.getD j d := by
  simp [List.getD_eq_getElem?_getD, List.getElem?_set_ne h]

/-- The aggregated decision of the window at `i` reads only indices at or
after `i`. -/
theorem windowVote_congr (yp yq : List ℚ) (e i : ℕ)
    (h : ∀ j, i ≤ j → yp.getD j 0 = yq.getD j 0) :
    windowVote yp e i = windowVote yq e i := by
  have hmap : (List.range (e - 1)).map (fun ii => npRound (yp.getD (i + ii) 0)) =
      (List.range (e - 1)).map (fun ii => npRound (yq.getD (i + ii) 0)) :=
    List.map_congr_left (fun ii _ => by rw [h (i + ii) (Nat.le_add_right i ii)])
  rw [windowVote, windowVote, hmap]

/-- One iteration of the ensembling loop: the decision is written at the
window start and exactly one counter is incremented according to the decision
and the leading label. -/
theorem ensembleStep_eq (yt : List ℚ) (e : ℕ) (yp : List ℚ) (c fa fr : ℕ)
    (i : ℕ) :
    ensembleStep yt e (yp, c, fa, fr) i =
      (yp.set i (windowVote yp e i),
       c + (if ensCorrect yt yp e i then 1 else 0),
       fa + (if ensFA yt yp e i then 1 else 0),
       fr + (if ensFR yt yp e i then 1 else 0)) := by
  simp only [ensembleStep, ensCorrect, ensFA, ensFR, decide_eq_true_eq]
  by_cases h1 : yt.getD i 0 = windowVote yp e i
  · have hfa : ¬ (yt.getD i 0 = 0 ∧ windowVote yp e i = 1) := by
      rintro ⟨ht, hr⟩
      rw [ht] at h1
      rw [← h1] at hr
      norm_num at hr
    have hfr : ¬ (yt.getD i 0 = 1 ∧ windowVote yp e i = 0) := by
      rintro ⟨ht, hr⟩
      rw [ht] at h1
      rw [← h1] at hr
      norm_num at hr
    rw [if_pos h1, if_pos h1, if_neg hfa, if_neg hfr]
    simp
  · by_cases h2 : yt.getD i 0 = 0 ∧ windowVote yp e i = 1
    · have hfr : ¬ (yt.getD i 0 = 1 ∧ windowVote yp e i = 0) := by
        rintro ⟨ht, _⟩
        rw [h2.1] at ht
        norm_num at ht
      rw [if_neg h1, if_neg h1, if_pos h2, if_pos h2, if_neg hfr]
      simp
    · by_cases h3 : yt.getD i 0 = 1 ∧ windowVote yp e i = 0
      · rw [if_neg h1, if_neg h1, if_neg h2, if_neg h2, if_pos h3, if_pos h3]
        simp
      · rw [if_neg h1, if_neg h1, if_neg h2, if_neg h2, if_neg h3, if_neg h3]
        simp

/-- Invariant of the ensembling loop over any tail of its index range: the
counters count the three window predicates computed from the ORIGINAL
predictions (each window start is overwritten only after its window is read,
and all later reads are at or after the next start), the list keeps its
length, and entries away from the visited window starts are untouched. -/
theorem ensembleCore_fold (yt yp₀ : List ℚ) (e : ℕ) (he : 2 ≤ e) :
    ∀ (k a : ℕ) (yp : List ℚ) (c fa fr : ℕ),
      (∀ j, a ≤ j → yp.getD j 0 = yp₀.getD j 0) →
      ((List.range' a k (e-1)).foldl (ensembleStep yt e) (yp, c, fa, fr)).2.1 =
        c + (List.range' a k (e-1)).countP (ensCorrect yt yp₀ e) ∧
      ((List.range' a k (e-1)).foldl (ensembleStep yt e) (yp, c, fa, fr)).2.2.1 =
        fa + (List.range' a k (e-1)).countP (ensFA yt yp₀ e) ∧
      ((List.range' a k (e-1)).foldl (ensembleStep yt e) (yp, c, fa, fr)).2.2.2 =
        fr + (List.range' a k (e-1)).countP (ensFR yt yp₀ e) ∧
      ((List.range' a k (e-1)).foldl (ensembleStep yt e) (yp, c, fa, fr)).1.length =
        yp.length ∧
      ∀ j, j ∉ List.range' a k (e-1) →
        ((List.range' a k (e-1)).foldl (ensembleStep yt e) (yp, c, fa, fr)).1.getD j 0 =
          yp.getD j 0
  | 0, a, yp, c, fa, fr, hagree => by simp
  | (k+1), a, yp, c, fa, fr, hagree => by
    rw [List.range'_succ, List.foldl_cons, ensembleStep_eq]
    have hd : windowVote yp e a = windowVote yp₀ e a :=
      windowVote_congr yp yp₀ e a hagree
    have hC : ensCorrect yt yp e a = ensCorrect yt yp₀ e a := by
      rw [ensCorrect, ensCorrect, hd]
    have hFA : ensFA yt yp e a = ensFA yt yp₀ e a := by
      rw [ensFA, ensFA, hd]
    have hFR : ensFR yt yp e a = ensFR yt yp₀ e a := by
      rw [ensFR, ensFR, hd]
    have hagree1 : ∀ j, a + (e-1) ≤ j →
        (yp.set a (windowVote yp e a)).getD j 0 = yp₀.getD j 0 := by
      intro j hj
      have hne : a ≠ j := by omega
      rw [getD_set_of_ne _ _ _ _ _ hne]
      exact hagree j (by omega)
    obtain ⟨ih1, ih2, ih3, ih4, ih5⟩ :=
      ensembleCore_fold yt yp₀ e he k (a + (e-1))
        (yp.set a (windowVote yp e a))
        (c + (if ensCorrect yt yp e a then 1 else 0))
        (fa + (if ensFA yt yp e a then 1 else 0))
        (fr + (if ensFR yt yp e a then 1 else 0)) hagree1
    refine ⟨?_, ?_, ?_, ?_, ?_⟩
    · rw [ih1, List.countP_cons, hC]
      omega
    · rw [ih2, List.countP_cons, hFA]
      omega
    · rw [ih3, List.countP_cons, hFR]
      omega
    · rw [ih4, List.length_set]
    · intro j hj
      rw [List.mem_cons] at hj
      push_neg at hj
      rw [ih5 j hj.2, getD_set_of_ne _ _ _ _ _ (Ne.symm hj.1)]

/-- The loop of `ensemble_accuracy_FAR_FRR` counts, over the window starts,
the three window predicates evaluated on the original predictions; it keeps
`y_pred`'s length and touches no entry outside the window starts. -/
theorem ensembleCore_counts (yt yp : List ℚ) (e : ℕ) (he : 2 ≤ e) :
    (ensembleCore yt yp e).2.1 =
      (windowStarts yt e).countP (ensCorrect yt yp e) ∧
    (ensembleCore yt yp e).2.2.1 =
      (windowStarts yt e).countP (ensFA yt yp e) ∧
    (ensembleCore yt yp e).2.2.2 =
      (windowStarts yt e).countP (ensFR yt yp e) ∧
    (ensembleCore yt yp e).1.length = yp.length ∧
    ∀ j, j ∉ windowStarts yt e →
      (ensembleCore yt yp e).1.getD j 0 = yp.getD j 0 := by
  obtain ⟨h1, h2, h3, h4, h5⟩ :=
    ensembleCore_fold yt yp e he ((yt.length - e + (e-1) - 1) / (e-1)) 0 yp 0 0 0
      (fun j _ => rfl)
  exact ⟨by simpa using h1, by simpa using h2, by simpa using h3, h4, h5⟩

/-- C1 (amended): for `ensemble_size ≥ 2` and nonzero denominators, the
ensembled metric does group predictions into windows of `ensemble_size - 1`
consecutive predictions with stride `ensemble_size - 1` (stopping before
`n - ensemble_size`), decide each window by whether its rounded predictions
sum above `ensemble_size // 2`, and compare the decision against the window's
leading true label — the in-place overwriting of `y_pred[i]` never affects a
later window, so the counts are those computed from the original predictions —
but the denominators are NOT the number of windows: accuracy divides by
`len(range(0, n, 9))` with a hardcoded stride 9, and FAR/FRR divide by that
quantity minus resp. exactly `int(sum(y_true) / (ensemble_size - 1))`. -/
theorem ensemble_accuracy_FAR_FRR_characterization (yt yp : List ℚ) (e : ℕ)
    (he : 2 ≤ e)
    (hna : ((nActual yt : ℕ) : ℚ) ≠ 0)
    (hden : ((nActual yt : ℕ) : ℚ) - ((posWindows yt e : ℤ) : ℚ) ≠ 0)
    (hposW : ((posWindows yt e : ℤ) : ℚ) ≠ 0) :
    (ensemble_accuracy_FAR_FRR yt yp e).2 =
      some ((((windowStarts yt e).countP (ensCorrect yt yp e) : ℕ) : ℚ) /
              ((nActual yt : ℕ) : ℚ),
            (((windowStarts yt e).countP (ensFA yt yp e) : ℕ) : ℚ) /
              (((nActual yt : ℕ) : ℚ) - ((posWindows yt e : ℤ) : ℚ)),
            (((windowStarts yt e).countP (ensFR yt yp e) : ℕ) : ℚ) /
              ((posWindows yt e : ℤ) : ℚ)) := by
  obtain ⟨h1, h2, h3, -, -⟩ := ensembleCore_counts yt yp e he
  simp only [ensemble_accuracy_FAR_FRR]
  rw [if_neg (by push_neg; exact ⟨hna, hden, hposW⟩), h1, h2, h3]
  rfl

/-- C5 (amended): the ensembled metric's loop mutates `y_pred` in place, but
only at window starts; every entry away from a window start is unchanged and
the length is preserved.  (`accuracy_FAR_FRR` itself reads its inputs only.) -/
theorem ensemble_mutates_only_window_starts (yt yp : List ℚ) (e : ℕ)
    (he : 2 ≤ e) :
    ((ensemble_accuracy_FAR_FRR yt yp e).1).length = yp.length ∧
    ∀ j, j ∉ windowStarts yt e →
      ((ensemble_accuracy_FAR_FRR yt yp e).1).getD j 0 = yp.getD j 0 := by
  obtain ⟨-, -, -, hlen, hpres⟩ := ensembleCore_counts yt yp e he
  have hfst : (ensemble_accuracy_FAR_FRR yt yp e).1 = (ensembleCore yt yp e).1 := by
    simp only [ensemble_accuracy_FAR_FRR]
    split_ifs <;> rfl
  rw [hfst]
  exact ⟨hlen, hpres⟩

/-- C10: with `ensemble_size = 2` every window holds a single rounded
prediction, which can never exceed the threshold `2 // 2 = 1`, so every
aggregated decision is 0; hence no window is a false accept and every window
whose leading true label is 1 is counted as a false reject. -/
theorem ensemble_size_two_always_rejects (yt yp : List ℚ)
    (h : ∀ p ∈ yp, npRound p = 0 ∨ npRound p = 1) :
    (∀ i, windowVote yp 2 i = 0) ∧
    (ensembleCore yt yp 2).2.2.1 = 0 ∧
    (ensembleCore yt yp 2).2.2.2 =
      (windowStarts yt 2).countP (fun i => decide (yt.getD i 0 = 1)) := by
  have hv : ∀ i, windowVote yp 2 i = 0 := by
    intro i
    have hsum : ((List.range (2-1)).map (fun ii => npRound (yp.getD (i+ii) 0))).sum =
        npRound (yp.getD i 0) := by
      have hr1 : List.range (2-1) = [0] := rfl
      simp [hr1]
    have hle : npRound (yp.getD i 0) ≤ 1 := by
      by_cases hip : i < yp.length
      · rw [List.getD_eq_getElem yp 0 hip]
        rcases h _ (List.getElem_mem hip) with h' | h' <;> omega
      · rw [List.getD_eq_default yp 0 (le_of_not_lt hip), npRound_zero]
        norm_num
    have hlt : ¬ (((2/2 : ℕ) : ℤ) < ((List.range (2-1)).map
        (fun ii => npRound (yp.getD (i+ii) 0))).sum) := by
      rw [hsum]
      rw [show ((2/2 : ℕ) : ℤ) = 1 by norm_num]
      exact not_lt.2 hle
    rw [windowVote, if_neg hlt]
  obtain ⟨-, h2, h3, -, -⟩ := ensembleCore_counts yt yp 2 (le_refl 2)
  refine ⟨hv, ?_, ?_⟩
  · rw [h2]
    refine List.countP_eq_zero.2 (fun i _ => ?_)
    simp [ensFA, hv i]
  · rw [h3]
    exact List.countP_congr (fun i _ => by simp [ensFR, hv i])

/-! ### The interrupt-flag lifecycle -/

/-- Running one more event is one more step. -/
theorem run_append (evs : List Event) (ev : Event) :
    run (evs ++ [ev]) = step (run evs) ev := by
  rw [run, run, List.foldl_append]
  rfl

/-- Once `training_complete` is set it is never reset. -/
theorem step_preserves_training_complete (s : ProcState) (ev : Event)
    (h : s.training_complete = true) :
    (step s ev).training_complete = true := by
  by_cases hex : s.exited = true
  · simp [step, hex, h]
  · simp only [Bool.not_eq_true] at hex
    cases ev
    · simp [step, hex, h]
    · cases hph : s.phase <;> simp [step, hex, hph, h]
    · cases hph : s.phase <;> simp [step, hex, hph, h]

/-- C7 (amended): both flags start false; an interrupt delivered while
`training_complete` is false sets `stop_flag` and does not exit; an interrupt
delivered while `training_complete` is true exits the process; once set,
`training_complete` is never reset within a run; and `training_complete`
becomes true as soon as a user's fit completes — before that user's
evaluation, not after the fit+evaluate cycle. -/
theorem interrupt_flag_lifecycle :
    (run []).stop_flag = false ∧ (run []).training_complete = false ∧
    (∀ evs, (run evs).exited = false → (run evs).training_complete = false →
      (run (evs ++ [Event.interrupt])).stop_flag = true ∧
      (run (evs ++ [Event.interrupt])).exited = false) ∧
    (∀ evs, (run evs).exited = false → (run evs).training_complete = true →
      (run (evs ++ [Event.interrupt])).exited = true) ∧
    (∀ evs ev, (run evs).training_complete = true →
      (run (evs ++ [ev])).training_complete = true) ∧
    (∀ evs u, (run evs).exited = false → (run evs).phase = Phase.fitting u →
      (run (evs ++ [Event.fitEnd])).training_complete = true) := by
  refine ⟨rfl, rfl, ?_, ?_, ?_, ?_⟩
  · intro evs hex htc
    rw [run_append]
    simp [step, hex, htc]
  · intro evs hex htc
    rw [run_append]
    simp [step, hex, htc]
  · intro evs ev htc
    rw [run_append]
    exact step_preserves_training_complete (run evs) ev htc
  · intro evs u hex hph
    rw [run_append]
    simp [step, hex, hph]

/-! ### Configuration validation -/

/-- With both files present, `parse_args` accepts an ensemble value iff it is
at most 100. -/
theorem parse_args_accept (e : ℤ) (he : e ≤ 100) :
    parse_args true true e = Except.ok e := by
  simp only [parse_args]
  rw [if_neg (by norm_num), if_neg (by norm_num),
    if_neg (not_not_intro he)]

/-- With both files present, `parse_args` rejects every ensemble value above
100 with the source's assertion message. -/
theorem parse_args_reject (e : ℤ) (he : 100 < e) :
    parse_args true true e =
      Except.error "Invalid ensemble value. Cannot have an ensemble > 100." := by
  simp only [parse_args]
  rw [if_neg (by norm_num), if_neg (by norm_num), if_pos (not_le.2 he)]

/-- C9: `parse_args` accepts ensemble = 100 and rejects every ensemble value
above 100 (and a missing triplet or model file), and `main` performs no model
or data loading when `parse_args` rejects: validation happens before any
loading. -/
theorem ensemble_bound_validation :
    parse_args true true 100 = Except.ok 100 ∧
    (∀ e : ℤ, 100 < e → parse_args true true e =
      Except.error "Invalid ensemble value. Cannot have an ensemble > 100.") ∧
    (∀ te me : Bool, ∀ e : ℤ, 100 < e → mainEffects te me e = []) ∧
    (∀ me : Bool, ∀ e : ℤ, mainEffects false me e = []) ∧
    (∀ te : Bool, ∀ e : ℤ, mainEffects te false e = []) ∧
    (∀ te me : Bool, ∀ e : ℤ, e ≤ 100 →
      mainEffects te me e = [] ∨ mainEffects te me e =
        [MainEffect.loadModel, MainEffect.getShapes, MainEffect.loadData]) := by
  refine ⟨parse_args_accept 100 (by norm_num), parse_args_reject, ?_, ?_, ?_, ?_⟩
  · intro te me e he
    cases te
    · rfl
    · cases me
      · rfl
      · rw [mainEffects, parse_args_reject e he]
  · intro me e
    rfl
  · intro te e
    cases te <;> rfl
  · intro te me e he
    cases te
    · exact Or.inl rfl
    · cases me
      · exact Or.inl rfl
      · exact Or.inr (by rw [mainEffects, parse_args_accept e he])

/-! ### The two supply modes of the pairwise-distance assembler -/

/-- Concatenating the batches recovers the dataset. -/
theorem flatten_chunkList {α : Type} (bs : ℕ) : ∀ (xs : List α),
    (chunkList bs xs).flatten = xs
  | [] => by rw [chunkList]; rfl
  | x :: xs => by
    rw [chunkList, List.flatten_cons, flatten_chunkList bs (xs.drop (bs-1)),
      List.cons_append, List.take_append_drop]
termination_by xs => xs.length
decreasing_by simp [List.length_drop]; omega

/-- Keeping only the first `m` batches keeps exactly the first `m * bs`
elements. -/
theorem flatten_take_chunkList {α : Type} (bs : ℕ) (hbs : 1 ≤ bs) :
    ∀ (m : ℕ) (xs : List α),
      ((chunkList bs xs).take m).flatten = xs.take (m * bs)
  | 0, xs => by simp
  | m+1, [] => by rw [chunkList]; simp
  | m+1, x :: xs => by
    have hbseq : (m+1)*bs = (bs - 1 + m * bs) + 1 := by
      cases bs with
      | zero => omega
      | succ b => simp [Nat.succ_sub_one]; ring
    rw [chunkList, List.take_succ_cons, List.flatten_cons,
      flatten_take_chunkList bs hbs m (xs.drop (bs-1)), hbseq,
      List.take_succ_cons, List.cons_append, ← List.take_add]

/-- Without a stop-after bound the two supply modes agree exactly, for every
batch size: batching is only about memory. -/
theorem assembler_modes_agree {α : Type} (emb : α → ℚ)
    (ts : List (α × α × α)) (bs : ℕ) :
    assembleBatched emb ts bs none = assembleWhole emb ts := by
  simp only [assembleBatched, dataGeneratorBatches, assembleWhole,
    Prod.mk.injEq]
  constructor <;>
    simp [← List.map_flatten, flatten_chunkList]

/-- C6: `main` runs the batch-supply mode with `stop_after_batch=10` and
`batch_size=100` for the training triplets, so a training set of 1001
triplets yields only 1000 positive-pair distance vectors in batch mode while
whole-dataset mode yields 1001: the two modes do not produce identical
outputs, contradicting both the spec's contract and the `--read_batches`
help text ("data is read incrementally in batches"). -/
theorem batched_mode_truncates :
    (mainTrainDistances (fun x : ℚ => x)
        (List.replicate 1001 ((0:ℚ), (0:ℚ), (0:ℚ))) true).1.length = 1000 ∧
    (mainTrainDistances (fun x : ℚ => x)
        (List.replicate 1001 ((0:ℚ), (0:ℚ), (0:ℚ))) false).1.length = 1001 := by
  constructor
  · have hb : ((chunkList 100 (List.replicate 1001 ((0:ℚ), (0:ℚ), (0:ℚ)))).take 10).flatten
        = (List.replicate 1001 ((0:ℚ), (0:ℚ), (0:ℚ))).take 1000 := by
      have h := flatten_take_chunkList 100 (by norm_num) 10
        (List.replicate 1001 ((0:ℚ), (0:ℚ), (0:ℚ)))
      rw [show (10 * 100 : ℕ) = 1000 by norm_num] at h
      exact h
    show (((chunkList 100 (List.replicate 1001 ((0:ℚ), (0:ℚ), (0:ℚ)))).take 10).map
        (fun b => b.map (fun t => |t.1 - t.2.1|))).flatten.length = 1000
    rw [← List.map_flatten, hb, List.length_map, List.length_take,
      List.length_replicate]
    norm_num
  · show ((List.replicate 1001 ((0:ℚ), (0:ℚ), (0:ℚ))).map
        (fun t => |t.1 - t.2.1|)).length = 1001
    rw [List.length_map, List.length_replicate]

section ConcreteEvaluation

attribute [local semireducible] Rat.add Rat.mul Rat.inv Rat.sub Rat.ofScientific

/-- C1 (counterexample): on y_true = y_pred = [0,0,1,1] with ensemble_size = 2
— vectors of length 4 ≥ ensemble_size + 1 — the source returns accuracy 2,
while both windows are decided and decided correctly, so the claimed
"correct windows / number of windows" accuracy is 1: the loop divides by
`len(range(0, 4, 9)) = 1` with its hardcoded stride 9, not by the number of
windows. -/
theorem ensemble_accuracy_not_window_ratio :
    (ensemble_accuracy_FAR_FRR [0,0,1,1] [0,0,1,1] 2).2 = some (2, 0, 0) ∧
    claimedEnsembleAccuracy [0,0,1,1] [0,0,1,1] 2 = 1 ∧ (2 : ℚ) ≠ 1 := by
  decide

/-- C1 (witness): the characterization applied at the concrete input above. -/
theorem ensemble_characterization_witness :
    (ensemble_accuracy_FAR_FRR [0,0,1,1] [0,0,1,1] 2).2 = some (2, 0, 0) := by
  have h := ensemble_accuracy_FAR_FRR_characterization [0,0,1,1] [0,0,1,1] 2
    (by norm_num) (by decide) (by decide) (by decide)
  rw [h]
  decide

/-- C2 (witness): the spec's worked example, via the general theorem. -/
theorem accuracy_FAR_FRR_correct_witness :
    accuracy_FAR_FRR [1,1,0,0] [9/10,1/5,1/10,4/5] = some (1/2, 1/2, 1/2) := by
  have h := accuracy_FAR_FRR_correct [1,1,0,0] [9/10,1/5,1/10,4/5]
    (by decide) (by decide) (by decide) (by decide) (by decide)
  rw [h]
  decide

/-- C3 (witness): the degenerate label vectors [1,1] and [0,0] make both
metrics fail. -/
theorem degenerate_division_by_zero_witness :
    accuracy_FAR_FRR [1,1] [9/10,1/5] = none ∧
    compute_FAR_FRR [9/10,1/5] [1,1] = none ∧
    accuracy_FAR_FRR [0,0] [9/10,1/5] = none ∧
    compute_FAR_FRR [9/10,1/5] [0,0] = none := by
  have h1 := degenerate_division_by_zero [1,1] [9/10,1/5] (by decide)
    (Or.inl (by decide))
  have h0 := degenerate_division_by_zero [0,0] [9/10,1/5] (by decide)
    (Or.inr (by decide))
  exact ⟨h1.1, h1.2, h0.1, h0.2⟩

/-- C4 (witness): the reconstruction identity on the spec's worked example,
where accuracy = FAR = FRR = 1/2: round(1/2·4) + 1/2·2 + 1/2·2 = 4. -/
theorem error_count_reconstruction_witness :
    ((round ((1/2 : ℚ) * ((([(1:ℚ),1,0,0].length : ℕ)) : ℚ)) : ℤ) : ℚ) +
      (1/2 : ℚ) * ((([(1:ℚ),1,0,0].countP (fun t => decide (t = 0)) : ℕ)) : ℚ) +
      (1/2 : ℚ) * ((([(1:ℚ),1,0,0].countP (fun t => decide (t = 1)) : ℕ)) : ℚ) =
      ((([(1:ℚ),1,0,0].length : ℕ)) : ℚ) :=
  error_count_reconstruction [1,1,0,0] [9/10,1/5,1/10,4/5]
    (by decide) (by decide) (by decide) (by decide) (by decide) (by decide)

/-- C5 (counterexample): `ensemble_accuracy_FAR_FRR` does not leave `y_pred`
unchanged: on y_pred = [1,1,1,1] (ensemble_size 2) the array comes back
[0,0,1,1] — the aggregated decisions have been written into it. -/
theorem ensemble_mutates_y_pred :
    (ensemble_accuracy_FAR_FRR [0,0,1,1] [1,1,1,1] 2).1 ≠ [1,1,1,1] := by
  decide

/-- C5 (witness): the mutation-locality theorem at the same input: the length
is preserved and the entry at index 3 — not a window start — is untouched. -/
theorem ensemble_mutation_witness :
    ((ensemble_accuracy_FAR_FRR [0,0,1,1] [1,1,1,1] 2).1).length = 4 ∧
    ((ensemble_accuracy_FAR_FRR [0,0,1,1] [1,1,1,1] 2).1).getD 3 0 = 1 := by
  have h := ensemble_mutates_only_window_starts [0,0,1,1] [1,1,1,1] 2
    (by norm_num)
  exact ⟨by rw [h.1]; rfl, by rw [h.2 3 (by decide)]; decide⟩

/-- C7 (counterexample): after the first user's fit alone — no evaluation has
finished yet — `training_complete` is already true (line 198 runs right after
`model.fit`, before evaluation), so an interrupt delivered during the first
user's evaluation exits immediately instead of setting `stop_flag`. -/
theorem training_complete_before_evaluation :
    (run [Event.fitEnd]).phase = Phase.evaluating 0 ∧
    (run [Event.fitEnd]).training_complete = true ∧
    (run [Event.fitEnd, Event.interrupt]).exited = true :=
  ⟨rfl, rfl, rfl⟩

/-- C7 (witness): the lifecycle theorem applied along concrete traces. -/
theorem interrupt_flag_lifecycle_witness :
    (run ([] ++ [Event.interrupt])).stop_flag = true ∧
    (run ([Event.fitEnd] ++ [Event.interrupt])).exited = true ∧
    (run ([Event.fitEnd] ++ [Event.evalEnd])).training_complete = true ∧
    (run ([] ++ [Event.fitEnd])).training_complete = true :=
  ⟨(interrupt_flag_lifecycle.2.2.1 [] rfl rfl).1,
   interrupt_flag_lifecycle.2.2.2.1 [Event.fitEnd] rfl rfl,
   interrupt_flag_lifecycle.2.2.2.2.1 [Event.fitEnd] Event.evalEnd rfl,
   interrupt_flag_lifecycle.2.2.2.2.2 [] 0 rfl rfl⟩

/-- C8 (witness): three test examples with labels 1, -1 and 0: the valid user
scoring 1/5 is falsely rejected, the -1 imposter scoring 9/10 is falsely
accepted, the 0 imposter scoring 1/10 is correctly rejected: FAR = 1/2,
FRR = 1. -/
theorem compute_FAR_FRR_correct_witness :
    compute_FAR_FRR [1/5, 9/10, 1/10] [1, -1, 0] = some (1/2, 1) := by
  have h := compute_FAR_FRR_correct [1/5,9/10,1/10] [1,-1,0]
    (by decide) ⟨1, by decide, by decide⟩ ⟨-1, by decide, by decide⟩
  rw [h]
  decide

/-- C9 (witness): the validation theorem at ensemble = 101 and 100. -/
theorem ensemble_bound_validation_witness :
    parse_args true true 101 =
      Except.error "Invalid ensemble value. Cannot have an ensemble > 100." ∧
    mainEffects true true 101 = [] ∧
    (mainEffects true true 100 = [] ∨ mainEffects true true 100 =
      [MainEffect.loadModel, MainEffect.getShapes, MainEffect.loadData]) :=
  ⟨ensemble_bound_validation.2.1 101 (by norm_num),
   ensemble_bound_validation.2.2.1 true true 101 (by norm_num),
   ensemble_bound_validation.2.2.2.2.2 true true 100 (by norm_num)⟩

/-- C10 (witness): with ensemble_size 2 and y_pred = [1,1,1,1] every window
decision is 0, there are no false accepts, and the false rejects are exactly
the window starts whose leading label is 1. -/
theorem ensemble_size_two_witness :
    windowVote [1,1,1,1] 2 0 = 0 ∧
    (ensembleCore [1,1,0,1] [1,1,1,1] 2).2.2.1 = 0 ∧
    (ensembleCore [1,1,0,1] [1,1,1,1] 2).2.2.2 =
      (windowStarts [1,1,0,1] 2).countP
        (fun i => decide (([1,1,0,1] : List ℚ).getD i 0 = 1)) := by
  have h := ensemble_size_two_always_rejects [1,1,0,1] [1,1,1,1] (by decide)
  exact ⟨h.1 0, h.2.1, h.2.2⟩

end ConcreteEvaluation

end TypingNet
